import Mathlib

/-!
Verification of the ADAS Monitoring GUI (`main.py`): a shallow embedding of
the video-panel visibility/layout controller (`_update_video_visibility`),
the indicator theming engine (`_set_indicator_state`, `_update_indicator_states`)
and the SVG recoloring routine (`_recolor_svg`), together with proofs of the
behavioural properties claimed for them.
-/

/-! ## Style constants (class `StyleConstants` in `main.py`) -/

namespace StyleConstants

def BG_DARK : String := "#0b0f12"
def BG_CARD : String := "#1a1e23"
def CYAN_BRIGHT : String := "#00e6ff"
def CYAN_LIGHT : String := "#c8faff"
def GRAY_DARK : String := "#555a61"
def GRAY_DARKER : String := "#3a3e43"

end StyleConstants

/-! ## Video panel layout controller

State observable from `_update_video_visibility`: the three toggle buttons
(`btn_v1.isChecked()` …), the three video-card visibilities, the visibility
of the secondary container `right_split`, and the two splitter allocations
(`content_split.setSizes` and `right_split.setSizes`). -/

structure VideoState where
  btn1 : Bool
  btn2 : Bool
  btn3 : Bool
  video1Visible : Bool
  video2Visible : Bool
  video3Visible : Bool
  rightSplitVisible : Bool
  contentSizes : Nat × Nat
  rightSizes : Nat × Nat
  deriving DecidableEq

/-- Embedding of `MainWindow._update_video_visibility` (main.py:433-459).
Reads the three toggle flags, writes the three card visibilities, the
container visibility, the horizontal split sizes, and — only when at least
one secondary feed is visible — the vertical split sizes. -/
def updateVideoVisibility (s : VideoState) : VideoState :=
  let v1 := s.btn1
  let v2 := s.btn2
  let v3 := s.btn3
  let s1 : VideoState :=
    { s with
      video1Visible := v1
      video2Visible := v2
      video3Visible := v3
      rightSplitVisible := v2 || v3 }
  let s2 : VideoState :=
    if v1 && (v2 || v3) then { s1 with contentSizes := (2, 1) }
    else if v1 then { s1 with contentSizes := (1, 0) }
    else if v2 || v3 then { s1 with contentSizes := (0, 1) }
    else { s1 with contentSizes := (1, 1) }
  if v2 && v3 then { s2 with rightSizes := (1, 1) }
  else if v2 then { s2 with rightSizes := (1, 0) }
  else if v3 then { s2 with rightSizes := (0, 1) }
  else s2

/-- The three toggle buttons / feeds. -/
inductive Feed where
  | f1
  | f2
  | f3
  deriving DecidableEq

/-- Set one toggle button's checked flag (the effect of clicking a toggle
before its `toggled` signal runs `_update_video_visibility`). -/
def setBtn : Feed → Bool → VideoState → VideoState
  | Feed.f1, b, s => { s with btn1 := b }
  | Feed.f2, b, s => { s with btn2 := b }
  | Feed.f3, b, s => { s with btn3 := b }

/-- `setFeedVisibility(feedId, visible)` from the spec: set the feed's flag
and run `_update_video_visibility`. -/
def setFeedVisibility (f : Feed) (b : Bool) (s : VideoState) : VideoState :=
  updateVideoVisibility (setBtn f b s)

/-- Target visibility of a feed under a target assignment `(t1, t2, t3)`. -/
def tgtOf (t : Bool × Bool × Bool) : Feed → Bool
  | Feed.f1 => t.1
  | Feed.f2 => t.2.1
  | Feed.f3 => t.2.2

/-- Call `setFeedVisibility` once per feed, in the order given by `o`,
driving each feed to its target visibility. -/
def applyOrder (o : List Feed) (t : Bool × Bool × Bool) (s : VideoState) : VideoState :=
  o.foldl (fun st f => setFeedVisibility f (tgtOf t f) st) s

/-- The six orders in which the three feeds can be visited. -/
def allOrders : List (List Feed) :=
  [[Feed.f1, Feed.f2, Feed.f3], [Feed.f1, Feed.f3, Feed.f2],
   [Feed.f2, Feed.f1, Feed.f3], [Feed.f2, Feed.f3, Feed.f1],
   [Feed.f3, Feed.f1, Feed.f2], [Feed.f3, Feed.f2, Feed.f1]]

/-- The state reached after driving all three feeds to targets `(t1, t2, t3)`
when at least one secondary feed ends up visible: every field is then fully
recomputed from the target flags. -/
def videoFinalState (t1 t2 t3 : Bool) : VideoState :=
  { btn1 := t1, btn2 := t2, btn3 := t3
    video1Visible := t1, video2Visible := t2, video3Visible := t3
    rightSplitVisible := t2 || t3
    contentSizes :=
      if t1 && (t2 || t3) then (2, 1)
      else if t1 then (1, 0)
      else if t2 || t3 then (0, 1)
      else (1, 1)
    rightSizes :=
      if t2 && t3 then (1, 1)
      else if t2 then (1, 0)
      else (0, 1) }

/-! ## SVG recoloring (`_recolor_svg`, main.py:489-503)

`re.sub(r'fill="[^"]*"', f'fill="{color}"', text)` scans the text left to
right; at each position it tries to match the literal `fill="`, then a
maximal run of non-quote characters, then a closing quote; a match is
replaced by `fill="` ++ color ++ `"` and scanning resumes after the
replacement, otherwise it moves one character right.  Documents are embedded
as `List Char`. -/

/-- Split a character list at its first double quote: `some (v, r)` when the
list is `v ++ '"' :: r` with `v` quote-free, `none` when it has no quote.
Models the regex fragment `[^"]*"`. -/
def splitQuote : List Char → Option (List Char × List Char)
  | [] => none
  | c :: rest =>
    if c = '"' then some ([], rest)
    else
      match splitQuote rest with
      | some (v, r) => some (c :: v, r)
      | none => none

/-- Leftmost-scan substitution over a document: embedding of Python's
`re.sub` for the attribute patterns used by `_recolor_svg`.  `pat` is the
literal pattern head including its opening quote (`fill="` or `stroke="`);
each match `pat ++ value ++ '"'` (value quote-free) is replaced by
`pat ++ color ++ '"'`.  The replacement splices `color` literally, which is
`re.sub`'s behaviour exactly when the replacement template contains no
backslash (Python processes backslash escapes in the template; on
backslash-free strings that processing is the identity).  The program only
ever passes the backslash-free hex colors `#00e6ff` and `#3a3e43`, and every
theorem quantifying over colors restricts itself to backslash-free ones. -/
def replaceAttr (pat color : List Char) : List Char → List Char
  | [] => []
  | c :: rest =>
    if pat.isPrefixOf (c :: rest) then
      match hsq : splitQuote ((c :: rest).drop pat.length) with
      | some (_, r) => pat ++ color ++ '"' :: replaceAttr pat color r
      | none => c :: replaceAttr pat color rest
    else c :: replaceAttr pat color rest
  termination_by s => s.length
  decreasing_by
  · have H : ∀ (l v r : List Char), splitQuote l = some (v, r) → r.length < l.length := by
      intro l
      induction l with
      | nil => intro v r h; simp [splitQuote] at h
      | cons a l ih =>
        intro v r h
        by_cases ha : a = '"'
        · simp [splitQuote, ha] at h
          simp [← h.2]
        · simp only [splitQuote, if_neg ha] at h
          cases hs : splitQuote l with
          | none => rw [hs] at h; exact absurd h (by simp)
          | some p =>
            rw [hs] at h
            obtain ⟨v', r'⟩ := p
            simp at h
            have := ih v' r' hs
            simp [← h.2]
            omega
    have h1 := H _ _ _ hsq
    have h2 : ((c :: rest).drop pat.length).length ≤ (c :: rest).length :=
      by simp [List.length_drop]
    omega
  · simp
  · simp

/-- Leftmost scan reading off the values of every `pat`-attribute of a
document: the very same scan as `replaceAttr`, collecting each matched
value instead of replacing it. -/
def collectAttrs (pat : List Char) : List Char → List (List Char)
  | [] => []
  | c :: rest =>
    if pat.isPrefixOf (c :: rest) then
      match hsq : splitQuote ((c :: rest).drop pat.length) with
      | some (v, r) => v :: collectAttrs pat r
      | none => collectAttrs pat rest
    else collectAttrs pat rest
  termination_by s => s.length
  decreasing_by
  · have H : ∀ (l v r : List Char), splitQuote l = some (v, r) → r.length < l.length := by
      intro l
      induction l with
      | nil => intro v r h; simp [splitQuote] at h
      | cons a l ih =>
        intro v r h
        by_cases ha : a = '"'
        · simp [splitQuote, ha] at h
          simp [← h.2]
        · simp only [splitQuote, if_neg ha] at h
          cases hs : splitQuote l with
          | none => rw [hs] at h; exact absurd h (by simp)
          | some p =>
            rw [hs] at h
            obtain ⟨v', r'⟩ := p
            simp at h
            have := ih v' r' hs
            simp [← h.2]
            omega
    have h1 := H _ _ _ hsq
    have h2 : ((c :: rest).drop pat.length).length ≤ (c :: rest).length :=
      by simp [List.length_drop]
    omega
  · simp
  · simp

/-- The literal characters `fill=`. -/
def fillKey : List Char := ['f', 'i', 'l', 'l', '=']

/-- The literal characters `stroke=`. -/
def strokeKey : List Char := ['s', 't', 'r', 'o', 'k', 'e', '=']

/-- The pattern head `fill="` of `r'fill="[^"]*"'`. -/
def patF : List Char := fillKey ++ ['"']

/-- The pattern head `stroke="` of `r'stroke="[^"]*"'`. -/
def patS : List Char := strokeKey ++ ['"']

/-- The text transformation performed by `_recolor_svg` (main.py:501-502):
first substitute every `fill="…"` attribute, then every `stroke="…"`
attribute, with the given color. -/
def recolorChars (color doc : List Char) : List Char :=
  replaceAttr patS color (replaceAttr patF color doc)

/-- A `QSvgWidget` as `_recolor_svg` sees it: the ad-hoc `original_svg_path`
attribute (absent when `hasattr` fails) and the currently loaded content. -/
structure SvgWidget where
  originalSvgPath : Option (List Char)
  content : List Char
  deriving DecidableEq

/-- Embedding of `_recolor_svg` (main.py:489-503): if the widget carries no
`original_svg_path`, or the file does not exist, return the widget unchanged
(no exception reaches the caller); otherwise substitute all fill and stroke
attribute values in the file's text and load the result.  `fs` models the
filesystem consulted by `os.path.exists` and `open(...).read()`. -/
def recolorSvg (fs : List Char → Option (List Char)) (w : SvgWidget)
    (color : String) : SvgWidget :=
  match w.originalSvgPath with
  | none => w
  | some p =>
    match fs p with
    | none => w
    | some doc => { w with content := recolorChars color.data doc }

/-! ## Indicator state engine -/

/-- An indicator card's mutable visual state: the attributes written by
`_set_indicator_state` (`is_on`, card border color, icon-circle border
color, label text color, glow color, glow blur radius, icon widget). -/
structure IndicatorCard where
  is_on : Bool
  borderColor : String
  circleBorderColor : String
  textColor : String
  glowColor : String
  glowRadius : Nat
  iconWidget : SvgWidget
  deriving DecidableEq

/-- Embedding of `_set_indicator_state` (main.py:461-487). -/
def setIndicatorState (fs : List Char → Option (List Char))
    (card : IndicatorCard) (is_on : Bool) : IndicatorCard :=
  let color := if is_on then StyleConstants.CYAN_BRIGHT else StyleConstants.GRAY_DARKER
  let text_color := if is_on then StyleConstants.CYAN_LIGHT else StyleConstants.GRAY_DARK
  let blur := if is_on then 24 else 0
  { card with
    is_on := is_on
    borderColor := color
    circleBorderColor := color
    iconWidget := recolorSvg fs card.iconWidget color
    textColor := text_color
    glowColor := if is_on then color else "#1a1e23"
    glowRadius := blur }

/-- The three indicator cards owned by the window. -/
structure IndicatorsState where
  lamp : IndicatorCard
  speaker : IndicatorCard
  buzzer : IndicatorCard
  deriving DecidableEq

/-- Embedding of `_update_indicator_states` (main.py:505-509): one timer
tick, with the three sampled random booleans made explicit inputs. -/
def updateIndicatorStates (fs : List Char → Option (List Char))
    (r : Bool × Bool × Bool) (st : IndicatorsState) : IndicatorsState :=
  { lamp := setIndicatorState fs st.lamp r.1
    speaker := setIndicatorState fs st.speaker r.2.1
    buzzer := setIndicatorState fs st.buzzer r.2.2 }

/-- N timer ticks with the given sequence of sampled booleans. -/
def runTicks (fs : List Char → Option (List Char))
    (samples : List (Bool × Bool × Bool)) (st : IndicatorsState) : IndicatorsState :=
  samples.foldl (fun s r => updateIndicatorStates fs r s) st

/-- The four visual attributes of a card are exactly the ones derived from
its current `is_on` value; the icon content is the recoloring of the card's
asset by the derived color whenever that asset is readable. -/
def consistentCard (fs : List Char → Option (List Char)) (c : IndicatorCard) : Prop :=
  c.borderColor = (if c.is_on then StyleConstants.CYAN_BRIGHT else StyleConstants.GRAY_DARKER) ∧
  c.circleBorderColor =
    (if c.is_on then StyleConstants.CYAN_BRIGHT else StyleConstants.GRAY_DARKER) ∧
  c.textColor = (if c.is_on then StyleConstants.CYAN_LIGHT else StyleConstants.GRAY_DARK) ∧
  c.glowRadius = (if c.is_on then 24 else 0) ∧
  ∀ doc, c.iconWidget.originalSvgPath.bind fs = some doc →
    c.iconWidget.content =
      recolorChars
        (if c.is_on then StyleConstants.CYAN_BRIGHT else StyleConstants.GRAY_DARKER).data doc

/-- All three cards are visually consistent. -/
def allConsistent (fs : List Char → Option (List Char)) (st : IndicatorsState) : Prop :=
  consistentCard fs st.lamp ∧ consistentCard fs st.speaker ∧ consistentCard fs st.buzzer

/-- Every closed `fill="value"` occurrence anywhere in `t` (value
quote-free) has the given color as its value. -/
def fillOccColor (color t : List Char) : Prop :=
  ∀ x v y, t = x ++ patF ++ v ++ '"' :: y → '"' ∉ v → v = color

/-- An empty filesystem: every path is missing (used for witnesses). -/
def noFs : List Char → Option (List Char) := fun _ => none

/-! ### Theorems about the layout controller -/

/-- Helper: running `_update_video_visibility` on a state whose toggle flags
are `(t1, t2, t3)` with a visible secondary feed yields the canonical state. -/
theorem update_of_btns (s : VideoState) (t1 t2 t3 : Bool)
    (h1 : s.btn1 = t1) (h2 : s.btn2 = t2) (h3 : s.btn3 = t3)
    (h : (t2 || t3) = true) :
    updateVideoVisibility s = videoFinalState t1 t2 t3 := by
  obtain ⟨b1, b2, b3, x1, x2, x3, x4, x5, x6⟩ := s
  subst h1; subst h2; subst h3
  cases b1 <;> cases b2 <;> cases b3 <;> simp at h ⊢ <;> rfl

/-- Helper: `_update_video_visibility` never changes the toggle flags. -/
theorem update_btns (s : VideoState) :
    (updateVideoVisibility s).btn1 = s.btn1 ∧
    (updateVideoVisibility s).btn2 = s.btn2 ∧
    (updateVideoVisibility s).btn3 = s.btn3 := by
  obtain ⟨b1, b2, b3, x1, x2, x3, x4, x5, x6⟩ := s
  cases b1 <;> cases b2 <;> cases b3 <;> exact ⟨rfl, rfl, rfl⟩

/-- Helper: `applyOrder` over any of the six feed orders reaches the same,
fully determined state whenever the target leaves a secondary feed visible. -/
theorem applyOrder_canonical (o : List Feed) (ho : o ∈ allOrders)
    (t1 t2 t3 : Bool) (h : (t2 || t3) = true) (s : VideoState) :
    applyOrder o (t1, t2, t3) s = videoFinalState t1 t2 t3 := by
  simp only [allOrders, List.mem_cons, List.not_mem_nil, or_false] at ho
  rcases ho with rfl | rfl | rfl | rfl | rfl | rfl <;>
  · show setFeedVisibility _ _ (setFeedVisibility _ _ (setFeedVisibility _ _ s)) =
      videoFinalState t1 t2 t3
    refine update_of_btns _ t1 t2 t3 ?_ ?_ ?_ h <;>
      simp [setFeedVisibility, (update_btns _).1, (update_btns _).2.1,
        (update_btns _).2.2, setBtn, tgtOf]

/-- C3: for every combination of the three toggle states, after
`_update_video_visibility` runs, the horizontal split sizes between the
primary feed and the secondary container are `(2,1)` when `v1 ∧ (v2 ∨ v3)`,
`(1,0)` when `v1` and no secondary feed is visible, `(0,1)` when `¬v1` and a
secondary feed is visible, and `(1,1)` when all three are hidden. -/
theorem c3_horizontal_split (s : VideoState) :
    ((s.btn1 = true ∧ (s.btn2 = true ∨ s.btn3 = true)) →
        (updateVideoVisibility s).contentSizes = (2, 1)) ∧
    ((s.btn1 = true ∧ s.btn2 = false ∧ s.btn3 = false) →
        (updateVideoVisibility s).contentSizes = (1, 0)) ∧
    ((s.btn1 = false ∧ (s.btn2 = true ∨ s.btn3 = true)) →
        (updateVideoVisibility s).contentSizes = (0, 1)) ∧
    ((s.btn1 = false ∧ s.btn2 = false ∧ s.btn3 = false) →
        (updateVideoVisibility s).contentSizes = (1, 1)) := by
  obtain ⟨b1, b2, b3, x1, x2, x3, x4, x5, x6⟩ := s
  cases b1 <;> cases b2 <;> cases b3 <;> simp [updateVideoVisibility]

/-- Witness for C3: the four horizontal-split cases at concrete states. -/
theorem c3_horizontal_split_witness :
    (updateVideoVisibility ⟨true, true, false, true, true, false, true, (9, 9), (9, 9)⟩).contentSizes
        = (2, 1) ∧
    (updateVideoVisibility ⟨true, false, false, true, true, false, true, (9, 9), (9, 9)⟩).contentSizes
        = (1, 0) ∧
    (updateVideoVisibility ⟨false, false, true, true, true, false, true, (9, 9), (9, 9)⟩).contentSizes
        = (0, 1) ∧
    (updateVideoVisibility ⟨false, false, false, true, true, false, true, (9, 9), (9, 9)⟩).contentSizes
        = (1, 1) :=
  ⟨(c3_horizontal_split _).1 ⟨rfl, Or.inl rfl⟩,
   (c3_horizontal_split _).2.1 ⟨rfl, rfl, rfl⟩,
   (c3_horizontal_split _).2.2.1 ⟨rfl, Or.inr rfl⟩,
   (c3_horizontal_split _).2.2.2 ⟨rfl, rfl, rfl⟩⟩

/-- C9: after every run of `_update_video_visibility`, the secondary-feed
container (`right_split`) is visible exactly when at least one of the two
secondary feeds is visible. -/
theorem c9_right_split_visible (s : VideoState) :
    (updateVideoVisibility s).rightSplitVisible = (s.btn2 || s.btn3) := by
  obtain ⟨b1, b2, b3, x1, x2, x3, x4, x5, x6⟩ := s
  cases b1 <;> cases b2 <;> cases b3 <;> rfl

/-- C5: `setFeedVisibility` is idempotent — setting a feed's flag and running
`_update_video_visibility` twice in a row equals doing it once. -/
theorem c5_setFeedVisibility_idempotent (f : Feed) (b : Bool) (s : VideoState) :
    setFeedVisibility f b (setFeedVisibility f b s) = setFeedVisibility f b s := by
  obtain ⟨b1, b2, b3, x1, x2, x3, x4, x5, x6⟩ := s
  cases f <;> cases b <;> cases b1 <;> cases b2 <;> cases b3 <;> rfl

/-- C1 counterexample: a state with both secondary feeds hidden (reachable by
first hiding only `video3`, which writes vertical sizes `(1,0)`) for which
`_update_video_visibility` leaves the vertical split at `(1,0)`, not `(1,1)`:
the claimed equal-default fallback does not happen. -/
theorem c1_counterexample :
    (⟨true, false, false, true, true, false, true, (2, 1), (1, 0)⟩ : VideoState).btn2 = false ∧
    (⟨true, false, false, true, true, false, true, (2, 1), (1, 0)⟩ : VideoState).btn3 = false ∧
    (updateVideoVisibility
        ⟨true, false, false, true, true, false, true, (2, 1), (1, 0)⟩).rightSizes = (1, 0) ∧
    ((1, 0) : Nat × Nat) ≠ (1, 1) := by
  decide

/-- C1 (amended): when both secondary feeds are hidden,
`_update_video_visibility` does not write the vertical split: the allocation
equals its pre-call value (so it is `(1,1)` only if it already was). -/
theorem c1_vertical_split_retained (s : VideoState)
    (h2 : s.btn2 = false) (h3 : s.btn3 = false) :
    (updateVideoVisibility s).rightSizes = s.rightSizes := by
  obtain ⟨b1, b2, b3, x1, x2, x3, x4, x5, x6⟩ := s
  subst h2; subst h3
  cases b1 <;> rfl

/-- Witness for C1 (amended) at a concrete both-hidden state. -/
theorem c1_vertical_split_retained_witness :
    (⟨false, false, false, true, true, false, true, (2, 1), (3, 4)⟩ : VideoState).btn2 = false ∧
    (⟨false, false, false, true, true, false, true, (2, 1), (3, 4)⟩ : VideoState).btn3 = false ∧
    (updateVideoVisibility
        ⟨false, false, false, true, true, false, true, (2, 1), (3, 4)⟩).rightSizes = (3, 4) :=
  ⟨rfl, rfl, c1_vertical_split_retained _ rfl rfl⟩

/-- C2 counterexample: driving all feeds to target `(true, false, false)` from
the same start state in two different orders ends with different vertical
split sizes (`(1,0)` vs `(1,1)`), because hiding the last visible secondary
feed leaves the vertical sizes at whatever the preceding call wrote. -/
theorem c2_counterexample :
    applyOrder [Feed.f3, Feed.f2, Feed.f1] (true, false, false)
        ⟨true, true, false, true, true, false, true, (2, 1), (1, 1)⟩ ≠
      applyOrder [Feed.f2, Feed.f3, Feed.f1] (true, false, false)
        ⟨true, true, false, true, true, false, true, (2, 1), (1, 1)⟩ := by
  decide

/-- C2 (amended): for every starting state and target assignment in which at
least one secondary feed remains visible, calling `setFeedVisibility` once per
feed yields the same final state in every order of the feeds. -/
theorem c2_order_independent (o1 o2 : List Feed)
    (h1 : o1 ∈ allOrders) (h2 : o2 ∈ allOrders)
    (t : Bool × Bool × Bool) (h : (t.2.1 || t.2.2) = true) (s : VideoState) :
    applyOrder o1 t s = applyOrder o2 t s := by
  obtain ⟨t1, t2, t3⟩ := t
  rw [applyOrder_canonical o1 h1 t1 t2 t3 h s, applyOrder_canonical o2 h2 t1 t2 t3 h s]

/-- Witness for C2 (amended): two concrete orders agree on a concrete state. -/
theorem c2_order_independent_witness :
    [Feed.f2, Feed.f1, Feed.f3] ∈ allOrders ∧
    [Feed.f3, Feed.f2, Feed.f1] ∈ allOrders ∧
    (((false, true, false) : Bool × Bool × Bool).2.1 ||
        ((false, true, false) : Bool × Bool × Bool).2.2) = true ∧
    applyOrder [Feed.f2, Feed.f1, Feed.f3] (false, true, false)
        ⟨true, true, true, true, true, true, true, (2, 1), (1, 1)⟩ =
      applyOrder [Feed.f3, Feed.f2, Feed.f1] (false, true, false)
        ⟨true, true, true, true, true, true, true, (2, 1), (1, 1)⟩ :=
  ⟨by decide, by decide, by decide,
   c2_order_independent _ _ (by decide) (by decide) _ (by decide) _⟩

/-- C10: when both secondary feeds are hidden, `_update_video_visibility`
does not write the vertical split sizes (they retain their previous value),
while the three feed visibilities, the container visibility and the
horizontal split sizes are all recomputed and written. -/
theorem c10_no_vertical_write_when_both_hidden (s : VideoState)
    (h2 : s.btn2 = false) (h3 : s.btn3 = false) :
    (updateVideoVisibility s).rightSizes = s.rightSizes ∧
    (updateVideoVisibility s).video1Visible = s.btn1 ∧
    (updateVideoVisibility s).video2Visible = false ∧
    (updateVideoVisibility s).video3Visible = false ∧
    (updateVideoVisibility s).rightSplitVisible = false ∧
    (updateVideoVisibility s).contentSizes = (if s.btn1 then (1, 0) else (1, 1)) := by
  obtain ⟨b1, b2, b3, x1, x2, x3, x4, x5, x6⟩ := s
  subst h2; subst h3
  cases b1 <;> exact ⟨rfl, rfl, rfl, rfl, rfl, rfl⟩

/-- Witness for C10 at a concrete both-hidden state. -/
theorem c10_no_vertical_write_witness :
    (⟨true, false, false, false, true, true, true, (0, 1), (7, 5)⟩ : VideoState).btn2 = false ∧
    (updateVideoVisibility
        ⟨true, false, false, false, true, true, true, (0, 1), (7, 5)⟩).rightSizes = (7, 5) ∧
    (updateVideoVisibility
        ⟨true, false, false, false, true, true, true, (0, 1), (7, 5)⟩).contentSizes = (1, 0) := by
  refine ⟨rfl, ?_, ?_⟩
  · exact (c10_no_vertical_write_when_both_hidden _ rfl rfl).1
  · exact (c10_no_vertical_write_when_both_hidden
      ⟨true, false, false, false, true, true, true, (0, 1), (7, 5)⟩ rfl rfl).2.2.2.2.2

/-! ### Theorems about the indicator engine -/

/-- Helper: `_recolor_svg` never changes the widget's `original_svg_path`. -/
theorem recolorSvg_path (fs : List Char → Option (List Char)) (w : SvgWidget)
    (color : String) : (recolorSvg fs w color).originalSvgPath = w.originalSvgPath := by
  cases hp : w.originalSvgPath with
  | none => simp [recolorSvg, hp]
  | some p => cases hf : fs p <;> simp [recolorSvg, hp, hf]

/-- C4: after `_set_indicator_state(c, true)` the border color is
`ACCENT_COLOR` (`CYAN_BRIGHT`, `#00e6ff`), the text color is
`ACCENT_TEXT_COLOR` (`CYAN_LIGHT`, `#c8faff`) and the glow radius is the
active glow 24; after `_set_indicator_state(c, false)` they are
`INACTIVE_COLOR` (`GRAY_DARKER`, `#3a3e43`), `INACTIVE_TEXT_COLOR`
(`GRAY_DARK`, `#555a61`) and 0. -/
theorem c4_indicator_theme (fs : List Char → Option (List Char)) (card : IndicatorCard) :
    ((setIndicatorState fs card true).borderColor = StyleConstants.CYAN_BRIGHT ∧
      StyleConstants.CYAN_BRIGHT = "#00e6ff" ∧
      (setIndicatorState fs card true).textColor = StyleConstants.CYAN_LIGHT ∧
      StyleConstants.CYAN_LIGHT = "#c8faff" ∧
      (setIndicatorState fs card true).glowRadius = 24) ∧
    ((setIndicatorState fs card false).borderColor = StyleConstants.GRAY_DARKER ∧
      StyleConstants.GRAY_DARKER = "#3a3e43" ∧
      (setIndicatorState fs card false).textColor = StyleConstants.GRAY_DARK ∧
      StyleConstants.GRAY_DARK = "#555a61" ∧
      (setIndicatorState fs card false).glowRadius = 0) :=
  ⟨⟨rfl, rfl, rfl, rfl, rfl⟩, ⟨rfl, rfl, rfl, rfl, rfl⟩⟩

/-- C6: when the widget carries no `original_svg_path` or the icon asset
file is missing, `_set_indicator_state` still updates the border color, the
text color and the glow radius exactly as in the normal case, and the icon
widget (in particular its loaded content) is left unchanged; no error
reaches the caller (the embedding is a total function). -/
theorem c6_missing_icon_skips_recolor (fs : List Char → Option (List Char))
    (card : IndicatorCard) (b : Bool)
    (h : card.iconWidget.originalSvgPath.bind fs = none) :
    (setIndicatorState fs card b).iconWidget = card.iconWidget ∧
    (setIndicatorState fs card b).borderColor =
      (if b then StyleConstants.CYAN_BRIGHT else StyleConstants.GRAY_DARKER) ∧
    (setIndicatorState fs card b).textColor =
      (if b then StyleConstants.CYAN_LIGHT else StyleConstants.GRAY_DARK) ∧
    (setIndicatorState fs card b).glowRadius = (if b then 24 else 0) := by
  refine ⟨?_, rfl, rfl, rfl⟩
  show recolorSvg fs card.iconWidget
      (if b then StyleConstants.CYAN_BRIGHT else StyleConstants.GRAY_DARKER) =
    card.iconWidget
  cases hp : card.iconWidget.originalSvgPath with
  | none => simp [recolorSvg, hp]
  | some p =>
    rw [hp] at h
    simp only [Option.some_bind] at h
    simp [recolorSvg, hp, h]

/-- Witness for C6: a concrete card whose asset the filesystem lacks. -/
theorem c6_missing_icon_skips_recolor_witness :
    (⟨false, "c", "c", "t", "g", 5, ⟨some ['p'], ['d']⟩⟩ :
        IndicatorCard).iconWidget.originalSvgPath.bind noFs = none ∧
    (setIndicatorState noFs
        ⟨false, "c", "c", "t", "g", 5, ⟨some ['p'], ['d']⟩⟩ true).iconWidget =
      (⟨false, "c", "c", "t", "g", 5, ⟨some ['p'], ['d']⟩⟩ : IndicatorCard).iconWidget ∧
    (setIndicatorState noFs
        ⟨false, "c", "c", "t", "g", 5, ⟨some ['p'], ['d']⟩⟩ true).borderColor = "#00e6ff" ∧
    (setIndicatorState noFs
        ⟨false, "c", "c", "t", "g", 5, ⟨some ['p'], ['d']⟩⟩ true).glowRadius = 24 :=
  ⟨rfl,
   (c6_missing_icon_skips_recolor noFs
     ⟨false, "c", "c", "t", "g", 5, ⟨some ['p'], ['d']⟩⟩ true rfl).1,
   (c6_missing_icon_skips_recolor noFs
     ⟨false, "c", "c", "t", "g", 5, ⟨some ['p'], ['d']⟩⟩ true rfl).2.1,
   (c6_missing_icon_skips_recolor noFs
     ⟨false, "c", "c", "t", "g", 5, ⟨some ['p'], ['d']⟩⟩ true rfl).2.2.2⟩

/-- Helper: every `_set_indicator_state` call leaves the card with all four
visual attributes derived from the written `is_on` value. -/
theorem consistent_setIndicatorState (fs : List Char → Option (List Char))
    (card : IndicatorCard) (b : Bool) :
    consistentCard fs (setIndicatorState fs card b) := by
  refine ⟨rfl, rfl, rfl, rfl, ?_⟩
  intro doc h
  have hpath : (setIndicatorState fs card b).iconWidget.originalSvgPath =
      card.iconWidget.originalSvgPath := recolorSvg_path fs card.iconWidget _
  rw [hpath] at h
  show (recolorSvg fs card.iconWidget
      (if b then StyleConstants.CYAN_BRIGHT else StyleConstants.GRAY_DARKER)).content =
    recolorChars
      (if b then StyleConstants.CYAN_BRIGHT else StyleConstants.GRAY_DARKER).data doc
  cases hp : card.iconWidget.originalSvgPath with
  | none => rw [hp] at h; exact absurd h (by simp)
  | some p =>
    rw [hp] at h
    simp only [Option.some_bind] at h
    simp [recolorSvg, hp, h]

/-- Helper: after a tick (with any sampled booleans) all three cards are
visually consistent. -/
theorem consistent_tick (fs : List Char → Option (List Char))
    (r : Bool × Bool × Bool) (st : IndicatorsState) :
    allConsistent fs (updateIndicatorStates fs r st) :=
  ⟨consistent_setIndicatorState fs st.lamp r.1,
   consistent_setIndicatorState fs st.speaker r.2.1,
   consistent_setIndicatorState fs st.buzzer r.2.2⟩

/-- Helper: a nonempty run of ticks ends in a consistent state. -/
theorem runTicks_cons_consistent (fs : List Char → Option (List Char)) :
    ∀ (samples : List (Bool × Bool × Bool)) (r : Bool × Bool × Bool)
      (st : IndicatorsState), allConsistent fs (runTicks fs (r :: samples) st) := by
  intro samples
  induction samples with
  | nil => intro r st; exact consistent_tick fs r st
  | cons r' rest ih =>
    intro r st
    show allConsistent fs (runTicks fs (r' :: rest) (updateIndicatorStates fs r st))
    exact ih r' _

/-- C7: for every number of ticks and every sequence of sampled random
booleans, after each call to `_update_indicator_states` every channel's four
visual attributes are the values derived from that channel's current `is_on`
value — never a mixture of the on- and off-theme.  (Any run of N calls is a
nonempty sample list, so this covers the state after every call.) -/
theorem c7_ticks_keep_consistency (fs : List Char → Option (List Char))
    (samples : List (Bool × Bool × Bool)) (st : IndicatorsState)
    (h : samples ≠ []) : allConsistent fs (runTicks fs samples st) := by
  cases samples with
  | nil => exact absurd rfl h
  | cons r rest => exact runTicks_cons_consistent fs rest r st

/-- Witness for C7: one tick over a concrete state. -/
theorem c7_ticks_keep_consistency_witness :
    ([((true : Bool), (false : Bool), (true : Bool))] ≠
        ([] : List (Bool × Bool × Bool))) ∧
    allConsistent noFs
      (runTicks noFs [(true, false, true)]
        ⟨⟨true, "a", "a", "a", "a", 1, ⟨none, ['z']⟩⟩,
         ⟨false, "b", "b", "b", "b", 2, ⟨none, ['z']⟩⟩,
         ⟨true, "c", "c", "c", "c", 3, ⟨none, ['z']⟩⟩⟩) :=
  ⟨by simp,
   c7_ticks_keep_consistency noFs [(true, false, true)] _ (by simp)⟩

/-! ### Lemmas about the SVG attribute substitution -/

theorem splitQuote_eq_some :
    ∀ (l v r : List Char), splitQuote l = some (v, r) → l = v ++ '"' :: r ∧ '"' ∉ v := by
  intro l
  induction l with
  | nil => intro v r h; simp [splitQuote] at h
  | cons a l ih =>
    intro v r h
    by_cases ha : a = '"'
    · subst ha
      simp [splitQuote] at h
      obtain ⟨hv, hr⟩ := h
      subst hv; subst hr
      simp
    · simp only [splitQuote, if_neg ha] at h
      cases hs : splitQuote l with
      | none => rw [hs] at h; simp at h
      | some p =>
        obtain ⟨v', r'⟩ := p
        rw [hs] at h
        simp at h
        obtain ⟨hv, hr⟩ := h
        obtain ⟨h1, h2⟩ := ih v' r' hs
        subst hv; subst hr
        refine ⟨by simp [h1], ?_⟩
        simp [List.mem_cons]
        exact ⟨fun hh => ha hh.symm, h2⟩

theorem splitQuote_cons (c : Char) (rest : List Char) :
    splitQuote (c :: rest) =
      if c = '"' then some ([], rest)
      else
        match splitQuote rest with
        | some (v, r) => some (c :: v, r)
        | none => none := rfl

theorem splitQuote_of_quote_free :
    ∀ (v r : List Char), '"' ∉ v → splitQuote (v ++ '"' :: r) = some (v, r) := by
  intro v
  induction v with
  | nil => intro r h; simp [splitQuote]
  | cons a v ih =>
    intro r h
    have ha : ¬ a = '"' := fun hh => h (by simp [hh])
    have hv : '"' ∉ v := fun hh => h (by simp [hh])
    rw [List.cons_append, splitQuote_cons, if_neg ha, ih r hv]

theorem splitQuote_eq_none : ∀ (l : List Char), splitQuote l = none → '"' ∉ l := by
  intro l
  induction l with
  | nil => intro _; simp
  | cons a l ih =>
    intro h
    by_cases ha : a = '"'
    · subst ha; simp [splitQuote] at h
    · simp only [splitQuote, if_neg ha] at h
      cases hs : splitQuote l with
      | none =>
        simp [List.mem_cons]
        exact ⟨fun hh => ha hh.symm, ih hs⟩
      | some p =>
        obtain ⟨v', r'⟩ := p
        rw [hs] at h
        simp at h

theorem isPrefixOf_ex : ∀ (p l : List Char), p.isPrefixOf l = true ↔ ∃ t, l = p ++ t := by
  intro p
  induction p with
  | nil => intro l; simp [List.isPrefixOf]
  | cons a p ih =>
    intro l
    cases l with
    | nil => simp [List.isPrefixOf]
    | cons b l =>
      simp only [List.isPrefixOf, Bool.and_eq_true, beq_iff_eq, ih l, List.cons_append]
      constructor
      · rintro ⟨rfl, t, rfl⟩; exact ⟨t, rfl⟩
      · rintro ⟨t, ht⟩
        injection ht with h1 h2
        exact ⟨h1.symm, t, h2⟩

theorem isPrefixOf_take (p l : List Char) : p.isPrefixOf l = true ↔ l.take p.length = p := by
  rw [isPrefixOf_ex]
  constructor
  · rintro ⟨t, rfl⟩; exact List.take_left p t
  · intro h
    refine ⟨l.drop p.length, ?_⟩
    conv_lhs => rw [← List.take_append_drop p.length l]
    rw [h]

theorem replaceAttr_nil (pat color : List Char) : replaceAttr pat color [] = [] := by
  simp [replaceAttr]

theorem replaceAttr_cons_neg (pat color : List Char) (c : Char) (rest : List Char)
    (h : pat.isPrefixOf (c :: rest) = false) :
    replaceAttr pat color (c :: rest) = c :: replaceAttr pat color rest := by
  rw [replaceAttr]
  simp [h]

theorem replaceAttr_cons_match (pat color : List Char) (c : Char) (rest v r : List Char)
    (h1 : pat.isPrefixOf (c :: rest) = true)
    (h2 : splitQuote ((c :: rest).drop pat.length) = some (v, r)) :
    replaceAttr pat color (c :: rest) = pat ++ color ++ '"' :: replaceAttr pat color r := by
  rw [replaceAttr, if_pos h1]
  split
  · next v' r' heq =>
      rw [h2] at heq
      simp only [Option.some.injEq, Prod.mk.injEq] at heq
      rw [heq.2]
  · next heq =>
      rw [h2] at heq
      exact absurd heq (by simp)

theorem replaceAttr_cons_nosplit (pat color : List Char) (c : Char) (rest : List Char)
    (h1 : pat.isPrefixOf (c :: rest) = true)
    (h2 : splitQuote ((c :: rest).drop pat.length) = none) :
    replaceAttr pat color (c :: rest) = c :: replaceAttr pat color rest := by
  rw [replaceAttr, if_pos h1]
  split
  · next v' r' heq =>
      rw [h2] at heq
      exact absurd heq (by simp)
  · next heq => rfl

theorem collectAttrs_nil (pat : List Char) : collectAttrs pat [] = [] := by
  simp [collectAttrs]

theorem collectAttrs_cons_neg (pat : List Char) (c : Char) (rest : List Char)
    (h : pat.isPrefixOf (c :: rest) = false) :
    collectAttrs pat (c :: rest) = collectAttrs pat rest := by
  rw [collectAttrs]
  simp [h]

theorem collectAttrs_cons_match (pat : List Char) (c : Char) (rest v r : List Char)
    (h1 : pat.isPrefixOf (c :: rest) = true)
    (h2 : splitQuote ((c :: rest).drop pat.length) = some (v, r)) :
    collectAttrs pat (c :: rest) = v :: collectAttrs pat r := by
  rw [collectAttrs, if_pos h1]
  split
  · next v' r' heq =>
      rw [h2] at heq
      simp only [Option.some.injEq, Prod.mk.injEq] at heq
      rw [heq.1, heq.2]
  · next heq =>
      rw [h2] at heq
      exact absurd heq (by simp)

theorem collectAttrs_cons_nosplit (pat : List Char) (c : Char) (rest : List Char)
    (h1 : pat.isPrefixOf (c :: rest) = true)
    (h2 : splitQuote ((c :: rest).drop pat.length) = none) :
    collectAttrs pat (c :: rest) = collectAttrs pat rest := by
  rw [collectAttrs, if_pos h1]
  split
  · next v' r' heq =>
      rw [h2] at heq
      exact absurd heq (by simp)
  · next heq => rfl

theorem replaceAttr_match (pat color t v r : List Char) (hne : pat ≠ [])
    (h1 : pat.isPrefixOf t = true)
    (h2 : splitQuote (t.drop pat.length) = some (v, r)) :
    replaceAttr pat color t = pat ++ color ++ '"' :: replaceAttr pat color r := by
  cases t with
  | nil =>
    obtain ⟨u, hu⟩ := (isPrefixOf_ex pat []).mp h1
    have : pat = [] := (List.append_eq_nil.mp hu.symm).1
    exact absurd this hne
  | cons c rest => exact replaceAttr_cons_match pat color c rest v r h1 h2

theorem collectAttrs_match (pat t v r : List Char) (hne : pat ≠ [])
    (h1 : pat.isPrefixOf t = true)
    (h2 : splitQuote (t.drop pat.length) = some (v, r)) :
    collectAttrs pat t = v :: collectAttrs pat r := by
  cases t with
  | nil =>
    obtain ⟨u, hu⟩ := (isPrefixOf_ex pat []).mp h1
    have : pat = [] := (List.append_eq_nil.mp hu.symm).1
    exact absurd this hne
  | cons c rest => exact collectAttrs_cons_match pat c rest v r h1 h2

/-- The substitution never changes the first `pat.length` characters of the
document. -/
theorem replaceAttr_take (pat color : List Char) :
    ∀ (n : Nat) (l : List Char), l.length ≤ n → ∀ k, k ≤ pat.length →
      (replaceAttr pat color l).take k = l.take k := by
  intro n
  induction n with
  | zero =>
    intro l hl k _
    have : l = [] := List.length_eq_zero.mp (Nat.le_zero.mp hl)
    subst this
    rw [replaceAttr_nil]
  | succ n ih =>
    intro l hl k hk
    cases l with
    | nil => rw [replaceAttr_nil]
    | cons c rest =>
      have hrest : rest.length ≤ n := by
        simp only [List.length_cons] at hl
        omega
      cases hpf : pat.isPrefixOf (c :: rest) with
      | true =>
        cases hsq : splitQuote ((c :: rest).drop pat.length) with
        | some p =>
          obtain ⟨v, r⟩ := p
          rw [replaceAttr_cons_match pat color c rest v r hpf hsq]
          have hk2 : k ≤ (pat ++ color).length := by
            rw [List.length_append]
            omega
          rw [List.take_append_of_le_length hk2, List.take_append_of_le_length hk]
          obtain ⟨u, hu⟩ := (isPrefixOf_ex pat (c :: rest)).mp hpf
          rw [hu, List.take_append_of_le_length hk]
        | none =>
          rw [replaceAttr_cons_nosplit pat color c rest hpf hsq]
          cases k with
          | zero => simp
          | succ k =>
            simp only [List.take_succ_cons]
            rw [ih rest hrest k (Nat.le_of_succ_le hk)]
      | false =>
        rw [replaceAttr_cons_neg pat color c rest hpf]
        cases k with
        | zero => simp
        | succ k =>
          simp only [List.take_succ_cons]
          rw [ih rest hrest k (Nat.le_of_succ_le hk)]

/-- A document with at most one double quote has no match: the substitution
returns it unchanged. -/
theorem replaceAttr_of_one_quote (pat color : List Char) (hp : '"' ∈ pat) :
    ∀ (n : Nat) (l : List Char), l.length ≤ n → l.count '"' ≤ 1 →
      replaceAttr pat color l = l := by
  intro n
  induction n with
  | zero =>
    intro l hl _
    have : l = [] := List.length_eq_zero.mp (Nat.le_zero.mp hl)
    subst this
    exact replaceAttr_nil pat color
  | succ n ih =>
    intro l hl hq
    cases l with
    | nil => exact replaceAttr_nil pat color
    | cons c rest =>
      have hrest : rest.length ≤ n := by
        simp only [List.length_cons] at hl
        omega
      have hqrest : rest.count '"' ≤ 1 := by
        rw [List.count_cons] at hq
        omega
      cases hpf : pat.isPrefixOf (c :: rest) with
      | false =>
        rw [replaceAttr_cons_neg pat color c rest hpf]
        rw [ih rest hrest hqrest]
      | true =>
        cases hsq : splitQuote ((c :: rest).drop pat.length) with
        | some p =>
          obtain ⟨v, r⟩ := p
          exfalso
          obtain ⟨u, hu⟩ := (isPrefixOf_ex pat (c :: rest)).mp hpf
          have hdrop : (c :: rest).drop pat.length = u := by
            rw [hu]; exact List.drop_left pat u
          obtain ⟨hform, _⟩ := splitQuote_eq_some _ _ _ hsq
          rw [hdrop] at hform
          have hcount : (c :: rest).count '"' = pat.count '"' + u.count '"' := by
            rw [hu, List.count_append]
          have hc1 : 0 < pat.count '"' := List.count_pos_iff.mpr hp
          have hc2 : 0 < u.count '"' := by
            rw [hform, List.count_append, List.count_cons]
            simp
          omega
        | none =>
          rw [replaceAttr_cons_nosplit pat color c rest hpf hsq]
          rw [ih rest hrest hqrest]

/-- A document with at most one double quote yields no attribute values. -/
theorem collectAttrs_of_one_quote (pat : List Char) (hp : '"' ∈ pat) :
    ∀ (n : Nat) (l : List Char), l.length ≤ n → l.count '"' ≤ 1 →
      collectAttrs pat l = [] := by
  intro n
  induction n with
  | zero =>
    intro l hl _
    have : l = [] := List.length_eq_zero.mp (Nat.le_zero.mp hl)
    subst this
    exact collectAttrs_nil pat
  | succ n ih =>
    intro l hl hq
    cases l with
    | nil => exact collectAttrs_nil pat
    | cons c rest =>
      have hrest : rest.length ≤ n := by
        simp only [List.length_cons] at hl
        omega
      have hqrest : rest.count '"' ≤ 1 := by
        rw [List.count_cons] at hq
        omega
      cases hpf : pat.isPrefixOf (c :: rest) with
      | false =>
        rw [collectAttrs_cons_neg pat c rest hpf]
        exact ih rest hrest hqrest
      | true =>
        cases hsq : splitQuote ((c :: rest).drop pat.length) with
        | some p =>
          obtain ⟨v, r⟩ := p
          exfalso
          obtain ⟨u, hu⟩ := (isPrefixOf_ex pat (c :: rest)).mp hpf
          have hdrop : (c :: rest).drop pat.length = u := by
            rw [hu]; exact List.drop_left pat u
          obtain ⟨hform, _⟩ := splitQuote_eq_some _ _ _ hsq
          rw [hdrop] at hform
          have hcount : (c :: rest).count '"' = pat.count '"' + u.count '"' := by
            rw [hu, List.count_append]
          have hc1 : 0 < pat.count '"' := List.count_pos_iff.mpr hp
          have hc2 : 0 < u.count '"' := by
            rw [hform, List.count_append, List.count_cons]
            simp
          omega
        | none =>
          rw [collectAttrs_cons_nosplit pat c rest hpf hsq]
          exact ih rest hrest hqrest

/-- If a pattern `p ++ '"' :: t` (p quote-free) matches at the head of
`c' ++ '"' :: X` with `c'` quote-free, the two quote-free parts coincide. -/
theorem quote_free_pre_eq (p : List Char) :
    ∀ (c' t X : List Char), '"' ∉ p → '"' ∉ c' →
      (p ++ '"' :: t).isPrefixOf (c' ++ '"' :: X) = true → c' = p := by
  induction p with
  | nil =>
    intro c' t X _ hc h
    cases c' with
    | nil => rfl
    | cons a c'' =>
      simp only [List.nil_append, List.cons_append, List.isPrefixOf, Bool.and_eq_true,
        beq_iff_eq] at h
      exact absurd (by rw [← h.1]; exact List.mem_cons_self _ _) hc
  | cons b p ih =>
    intro c' t X hp hc h
    have hbq : ¬ b = '"' := fun hh => hp (by simp [hh])
    cases c' with
    | nil =>
      simp only [List.cons_append, List.nil_append, List.isPrefixOf, Bool.and_eq_true,
        beq_iff_eq] at h
      exact absurd h.1 hbq
    | cons a c'' =>
      simp only [List.cons_append, List.isPrefixOf, Bool.and_eq_true, beq_iff_eq] at h
      have hp' : '"' ∉ p := fun hh => hp (by simp [hh])
      have hc' : '"' ∉ c'' := fun hh => hc (by simp [hh])
      have he : c'' = p := ih c'' t X hp' hc' h.2
      rw [he, ← h.1]

/-- Splitting a list at a double quote is unambiguous when both named parts
are quote-free. -/
theorem quote_free_append_inj :
    ∀ (a b c d : List Char), a ++ '"' :: b = c ++ '"' :: d → '"' ∉ a → '"' ∉ c →
      a = c ∧ b = d := by
  intro a
  induction a with
  | nil =>
    intro b c d h _ hc
    cases c with
    | nil =>
      simp only [List.nil_append] at h
      injection h with _ h2
      exact ⟨rfl, h2⟩
    | cons x c' =>
      simp only [List.nil_append, List.cons_append] at h
      injection h with h1 _
      exact absurd (by rw [← h1]; exact List.mem_cons_self _ _) hc
  | cons y a' ih =>
    intro b c d h ha hc
    cases c with
    | nil =>
      simp only [List.cons_append, List.nil_append] at h
      injection h with h1 _
      exact absurd (by rw [h1]; exact List.mem_cons_self _ _) ha
    | cons x c' =>
      simp only [List.cons_append] at h
      injection h with h1 h2
      have ha' : '"' ∉ a' := fun hh => ha (by simp [hh])
      have hc' : '"' ∉ c' := fun hh => hc (by simp [hh])
      obtain ⟨e1, e2⟩ := ih b c' d h2 ha' hc'
      exact ⟨by rw [h1, e1], e2⟩

/-- Substituting with a longer pattern does not change whether a shorter
pattern matches at the head of a cons cell. -/
theorem isPrefixOf_cons_replace (pat2 pat color : List Char)
    (hlen : pat2.length ≤ pat.length) (c : Char) (rest : List Char) :
    (pat2.isPrefixOf (c :: replaceAttr pat color rest) = true) ↔
      (pat2.isPrefixOf (c :: rest) = true) := by
  cases pat2 with
  | nil => simp [List.isPrefixOf]
  | cons p2 pat2' =>
    rw [isPrefixOf_take, isPrefixOf_take]
    simp only [List.length_cons, List.take_succ_cons]
    rw [replaceAttr_take pat color rest.length rest le_rfl pat2'.length
        (by simp only [List.length_cons] at hlen; omega)]

/-- Scanning a quote-free region (followed by a quote) whose suffixes never
equal the pattern's key leaves the substitution untouched on that region. -/
theorem replaceAttr_skip_qfree (pat key color : List Char) (hpk : pat = key ++ ['"'])
    (hkq : '"' ∉ key) (hkne : key ≠ []) :
    ∀ (c' b : List Char), '"' ∉ c' → (∀ s, s <:+ c' → s ≠ key) →
      replaceAttr pat color (c' ++ '"' :: b) = c' ++ '"' :: replaceAttr pat color b := by
  intro c'
  induction c' with
  | nil =>
    intro b _ hns
    have hpf : pat.isPrefixOf ('"' :: b) = false := by
      cases hh : pat.isPrefixOf ('"' :: b) with
      | false => rfl
      | true =>
        have : ([] : List Char) = key :=
          quote_free_pre_eq key [] [] b hkq (by simp) (by simpa [hpk] using hh)
        exact absurd this (hns [] (List.suffix_refl []))
    simp only [List.nil_append]
    rw [replaceAttr_cons_neg _ _ _ _ hpf]
  | cons a c'' ih =>
    intro b hq hns
    have hq'' : '"' ∉ c'' := fun hh => hq (by simp [hh])
    have hpf : pat.isPrefixOf (a :: (c'' ++ '"' :: b)) = false := by
      cases hh : pat.isPrefixOf (a :: (c'' ++ '"' :: b)) with
      | false => rfl
      | true =>
        have : a :: c'' = key :=
          quote_free_pre_eq key (a :: c'') [] b hkq hq (by simpa [hpk] using hh)
        exact absurd this (hns (a :: c'') (List.suffix_refl _))
    rw [List.cons_append, replaceAttr_cons_neg _ _ _ _ hpf,
      ih b hq'' (fun s hs => hns s (hs.trans (List.suffix_cons a c''))),
      List.cons_append]

/-- The collecting scan likewise passes over such a quote-free region. -/
theorem collectAttrs_skip_qfree (pat key : List Char) (hpk : pat = key ++ ['"'])
    (hkq : '"' ∉ key) (hkne : key ≠ []) :
    ∀ (c' b : List Char), '"' ∉ c' → (∀ s, s <:+ c' → s ≠ key) →
      collectAttrs pat (c' ++ '"' :: b) = collectAttrs pat b := by
  intro c'
  induction c' with
  | nil =>
    intro b _ hns
    have hpf : pat.isPrefixOf ('"' :: b) = false := by
      cases hh : pat.isPrefixOf ('"' :: b) with
      | false => rfl
      | true =>
        have : ([] : List Char) = key :=
          quote_free_pre_eq key [] [] b hkq (by simp) (by simpa [hpk] using hh)
        exact absurd this (hns [] (List.suffix_refl []))
    simp only [List.nil_append]
    rw [collectAttrs_cons_neg _ _ _ hpf]
  | cons a c'' ih =>
    intro b hq hns
    have hq'' : '"' ∉ c'' := fun hh => hq (by simp [hh])
    have hpf : pat.isPrefixOf (a :: (c'' ++ '"' :: b)) = false := by
      cases hh : pat.isPrefixOf (a :: (c'' ++ '"' :: b)) with
      | false => rfl
      | true =>
        have : a :: c'' = key :=
          quote_free_pre_eq key (a :: c'') [] b hkq hq (by simpa [hpk] using hh)
        exact absurd this (hns (a :: c'') (List.suffix_refl _))
    rw [List.cons_append, collectAttrs_cons_neg _ _ _ hpf,
      ih b hq'' (fun s hs => hns s (hs.trans (List.suffix_cons a c'')))]

/-- The scan over a freshly written attribute block reads back exactly the
written color and then continues after the block. -/
theorem collectAttrs_block (pat color b : List Char) (hq : '"' ∉ color) (hne : pat ≠ []) :
    collectAttrs pat (pat ++ color ++ '"' :: b) = color :: collectAttrs pat b := by
  apply collectAttrs_match pat _ color b hne
  · rw [isPrefixOf_ex]
    exact ⟨color ++ '"' :: b, List.append_assoc pat color ('"' :: b)⟩
  · rw [List.append_assoc, List.drop_left]
    exact splitQuote_of_quote_free color b hq

/-- The stroke substitution walks straight over a freshly written
`fill="color"` block when the color is quote-free and does not end in
`stroke=`. -/
theorem replaceS_skip_fillblock (color : List Char) (hq : '"' ∉ color)
    (hsfx : ¬ strokeKey <:+ color) (b : List Char) :
    replaceAttr patS color (patF ++ color ++ '"' :: b) =
      patF ++ color ++ '"' :: replaceAttr patS color b := by
  have h1 : patF ++ color ++ '"' :: b = fillKey ++ '"' :: (color ++ '"' :: b) := by
    simp [patF, List.append_assoc]
  have h2 : patF ++ color ++ '"' :: replaceAttr patS color b =
      fillKey ++ '"' :: (color ++ '"' :: replaceAttr patS color b) := by
    simp [patF, List.append_assoc]
  rw [h1, h2]
  rw [replaceAttr_skip_qfree patS strokeKey color rfl (by decide) (by decide)
      fillKey (color ++ '"' :: b) (by decide)
      (fun s hs heq => absurd (heq ▸ hs) (by decide))]
  rw [replaceAttr_skip_qfree patS strokeKey color rfl (by decide) (by decide)
      color b hq (fun s hs heq => hsfx (heq ▸ hs))]

/-- The fill-collecting scan walks straight over a freshly written
`stroke="color"` block when the color is quote-free and does not end in
`fill=`. -/
theorem collectF_skip_strokeblock (color : List Char) (hq : '"' ∉ color)
    (hffx : ¬ fillKey <:+ color) (b : List Char) :
    collectAttrs patF (patS ++ color ++ '"' :: b) = collectAttrs patF b := by
  have h1 : patS ++ color ++ '"' :: b = strokeKey ++ '"' :: (color ++ '"' :: b) := by
    simp [patS, List.append_assoc]
  rw [h1]
  rw [collectAttrs_skip_qfree patF fillKey rfl (by decide) (by decide)
      strokeKey (color ++ '"' :: b) (by decide)
      (fun s hs heq => absurd (heq ▸ hs) (by decide))]
  rw [collectAttrs_skip_qfree patF fillKey rfl (by decide) (by decide)
      color b hq (fun s hs heq => hffx (heq ▸ hs))]

/-- Single-pass completeness: scanning the output of the substitution with
the same pattern reads only the written color. -/
theorem collect_replace_self (pat color : List Char) (hq : '"' ∉ color)
    (hp1 : pat.count '"' = 1) (hne : pat ≠ []) :
    ∀ (n : Nat) (s : List Char), s.length ≤ n →
      ∀ v ∈ collectAttrs pat (replaceAttr pat color s), v = color := by
  have hpmem : '"' ∈ pat := List.count_pos_iff.mp (by omega)
  intro n
  induction n with
  | zero =>
    intro s hs v hv
    have : s = [] := List.length_eq_zero.mp (Nat.le_zero.mp hs)
    subst this
    rw [replaceAttr_nil, collectAttrs_nil] at hv
    exact absurd hv (List.not_mem_nil v)
  | succ n ih =>
    intro s hs v hv
    cases s with
    | nil =>
      rw [replaceAttr_nil, collectAttrs_nil] at hv
      exact absurd hv (List.not_mem_nil v)
    | cons c rest =>
      have hrest : rest.length ≤ n := by
        simp only [List.length_cons] at hs
        omega
      cases hpf : pat.isPrefixOf (c :: rest) with
      | true =>
        cases hsq : splitQuote ((c :: rest).drop pat.length) with
        | some p =>
          obtain ⟨v0, r⟩ := p
          rw [replaceAttr_cons_match pat color c rest v0 r hpf hsq] at hv
          rw [collectAttrs_block pat color _ hq hne] at hv
          rcases List.mem_cons.mp hv with h | h
          · exact h
          · obtain ⟨hform, _⟩ := splitQuote_eq_some _ _ _ hsq
            have hlr : r.length ≤ n := by
              have hlen := congrArg List.length hform
              simp only [List.length_drop, List.length_cons, List.length_append] at hlen
              have hple : 1 ≤ pat.length := by
                cases pat with
                | nil => exact absurd rfl hne
                | cons _ _ => simp
              omega
            exact ih r hlr v h
        | none =>
          rw [replaceAttr_cons_nosplit pat color c rest hpf hsq] at hv
          have hqd : '"' ∉ (c :: rest).drop pat.length := splitQuote_eq_none _ hsq
          obtain ⟨u, hu⟩ := (isPrefixOf_ex _ _).mp hpf
          have hdrop : (c :: rest).drop pat.length = u := by
            rw [hu]; exact List.drop_left pat u
          have hcnt : (c :: rest).count '"' = 1 := by
            rw [hu, List.count_append]
            have h0 : u.count '"' = 0 := by
              rw [hdrop] at hqd
              exact List.count_eq_zero.mpr hqd
            omega
          have hrle : rest.count '"' ≤ 1 := by
            rw [List.count_cons] at hcnt
            omega
          rw [replaceAttr_of_one_quote pat color hpmem rest.length rest le_rfl hrle] at hv
          rw [collectAttrs_of_one_quote pat hpmem (rest.length + 1) (c :: rest)
              (by simp) (by omega)] at hv
          exact absurd hv (List.not_mem_nil v)
      | false =>
        rw [replaceAttr_cons_neg pat color c rest hpf] at hv
        have hpf2 : pat.isPrefixOf (c :: replaceAttr pat color rest) = false := by
          cases hh : pat.isPrefixOf (c :: replaceAttr pat color rest) with
          | false => rfl
          | true =>
            have := (isPrefixOf_cons_replace pat pat color le_rfl c rest).mp hh
            rw [hpf] at this
            exact absurd this (by simp)
        rw [collectAttrs_cons_neg pat c _ hpf2] at hv
        exact ih rest hrest v hv

/-- A closed fill occurrence in a suffix is one in the whole document. -/
theorem fillOccColor_of_append (color a t : List Char)
    (h : fillOccColor color (a ++ t)) : fillOccColor color t := by
  intro x v y hdec hv
  refine h (a ++ x) v y ?_ hv
  rw [hdec]
  simp [List.append_assoc]

/-- Prepending a canonical `fill="color"` block preserves the occurrence
invariant, provided the color is quote-free and does not end in `fill=`. -/
theorem fillOccColor_block (color Y : List Char) (hq : '"' ∉ color)
    (hffx : ¬ fillKey <:+ color) (hY : fillOccColor color Y) :
    fillOccColor color (patF ++ color ++ '"' :: Y) := by
  intro x v y hdec hv
  have hdec' : patF ++ (color ++ '"' :: Y) = x ++ (patF ++ (v ++ '"' :: y)) := by
    rw [← List.append_assoc]
    rw [hdec]
    simp [List.append_assoc]
  rcases List.append_eq_append_iff.mp hdec' with ⟨a', hx, hb⟩ | ⟨c', hx, hd⟩
  · rcases List.append_eq_append_iff.mp hb with ⟨a'', ha', hbb⟩ | ⟨cc, hcolor, hdd⟩
    · cases a'' with
      | nil =>
        simp only [List.nil_append] at hbb
        rw [show patF ++ (v ++ '"' :: y) = 'f' :: (('i' :: 'l' :: 'l' :: '=' :: '"' :: []) ++
            (v ++ '"' :: y)) from rfl] at hbb
        injection hbb with hz _
        exact absurd hz (by decide)
      | cons q a''' =>
        injection hbb with _ hY'
        refine hY a''' v y ?_ hv
        rw [hY']
        simp [List.append_assoc]
    · have hccq : '"' ∉ cc := fun hh => hq (hcolor ▸ List.mem_append.mpr (Or.inr hh))
      have heq : fillKey ++ '"' :: (v ++ '"' :: y) = cc ++ '"' :: Y := by
        rw [← hdd]
        simp [patF, List.append_assoc]
      obtain ⟨h1, _⟩ := quote_free_append_inj fillKey (v ++ '"' :: y) cc Y heq (by decide) hccq
      exact absurd ⟨a', by rw [h1]; exact hcolor.symm⟩ hffx
  · have hsuf : c' <:+ patF := ⟨x, hx.symm⟩
    have hmem : c' ∈ patF.tails := by
      rw [List.mem_tails]
      exact hsuf
    have htails : patF.tails = [['f', 'i', 'l', 'l', '=', '"'], ['i', 'l', 'l', '=', '"'],
        ['l', 'l', '=', '"'], ['l', '=', '"'], ['=', '"'], ['"'], []] := by decide
    rw [htails] at hmem
    simp only [List.mem_cons, List.not_mem_nil, or_false] at hmem
    rcases hmem with rfl | rfl | rfl | rfl | rfl | rfl | rfl
    · have hd' : v ++ '"' :: y = color ++ '"' :: Y := by
        have := hd
        simp only [patF, fillKey, List.cons_append, List.nil_append, List.append_assoc,
          List.cons.injEq, true_and] at this
        exact this
      exact (quote_free_append_inj v y color Y hd' hv hq).1
    · exfalso
      simp [patF, fillKey] at hd
    · exfalso
      simp [patF, fillKey] at hd
    · exfalso
      simp [patF, fillKey] at hd
    · exfalso
      simp [patF, fillKey] at hd
    · exfalso
      simp [patF, fillKey] at hd
    · simp only [List.nil_append] at hd
      have heq : fillKey ++ '"' :: (v ++ '"' :: y) = color ++ '"' :: Y := by
        rw [← hd]
        simp [patF, List.append_assoc]
      obtain ⟨h1, _⟩ := quote_free_append_inj fillKey (v ++ '"' :: y) color Y heq
        (by decide) hq
      exact absurd ⟨[], by rw [List.nil_append]; exact h1⟩ hffx

/-- After the fill pass, every closed fill occurrence anywhere in the output
carries the written color (for quote-free colors not ending in `fill=`). -/
theorem fillOcc_replaceF (color : List Char) (hq : '"' ∉ color)
    (hffx : ¬ fillKey <:+ color) :
    ∀ (n : Nat) (s : List Char), s.length ≤ n →
      fillOccColor color (replaceAttr patF color s) := by
  intro n
  induction n with
  | zero =>
    intro s hs
    have : s = [] := List.length_eq_zero.mp (Nat.le_zero.mp hs)
    subst this
    rw [replaceAttr_nil]
    intro x v y hdec _
    exact absurd hdec (by simp)
  | succ n ih =>
    intro s hs
    cases s with
    | nil =>
      rw [replaceAttr_nil]
      intro x v y hdec _
      exact absurd hdec (by simp)
    | cons c rest =>
      have hrest : rest.length ≤ n := by
        simp only [List.length_cons] at hs
        omega
      cases hpf : patF.isPrefixOf (c :: rest) with
      | true =>
        cases hsq : splitQuote ((c :: rest).drop patF.length) with
        | some p =>
          obtain ⟨v0, r⟩ := p
          rw [replaceAttr_cons_match patF color c rest v0 r hpf hsq]
          obtain ⟨hform, _⟩ := splitQuote_eq_some _ _ _ hsq
          have hlr : r.length ≤ n := by
            have hlen := congrArg List.length hform
            simp only [List.length_drop, List.length_cons, List.length_append] at hlen
            have : patF.length = 6 := by decide
            omega
          exact fillOccColor_block color _ hq hffx (ih r hlr)
        | none =>
          rw [replaceAttr_cons_nosplit patF color c rest hpf hsq]
          obtain ⟨u, hu⟩ := (isPrefixOf_ex _ _).mp hpf
          have hdropu : (c :: rest).drop patF.length = u := by
            rw [hu]; exact List.drop_left patF u
          have hqu : '"' ∉ u := splitQuote_eq_none _ (hdropu ▸ hsq)
          have hcnt : (c :: rest).count '"' = 1 := by
            rw [hu, List.count_append]
            have h1 : patF.count '"' = 1 := by decide
            have h0 : u.count '"' = 0 := List.count_eq_zero.mpr hqu
            omega
          have hrle : rest.count '"' ≤ 1 := by
            rw [List.count_cons] at hcnt
            omega
          rw [replaceAttr_of_one_quote patF color (by decide) rest.length rest le_rfl hrle]
          intro x v y hdec hvq
          exfalso
          have h2 : 2 ≤ (c :: rest).count '"' := by
            rw [hdec, List.count_append, List.count_append, List.count_append,
              List.count_cons]
            have h1 : patF.count '"' = 1 := by decide
            simp
            omega
          omega
      | false =>
        rw [replaceAttr_cons_neg patF color c rest hpf]
        intro x v y hdec hvq
        cases x with
        | nil =>
          exfalso
          have hpre : patF.isPrefixOf (c :: replaceAttr patF color rest) = true := by
            rw [isPrefixOf_ex]
            refine ⟨v ++ '"' :: y, ?_⟩
            rw [hdec]
            simp [List.append_assoc]
          have := (isPrefixOf_cons_replace patF patF color le_rfl c rest).mp hpre
          rw [hpf] at this
          exact absurd this (by simp)
        | cons a x' =>
          rw [List.cons_append, List.cons_append, List.cons_append] at hdec
          injection hdec with _ hdec'
          exact ih rest hrest x' v y hdec' hvq

/-- Cross-pass lemma: the stroke pass preserves the property that every
fill attribute the scan can read has the written color. -/
theorem collectF_strokeReplace (color : List Char) (hq : '"' ∉ color)
    (hffy : ¬ fillKey <:+ color) (hsfx : ¬ strokeKey <:+ color) :
    ∀ (n : Nat) (t : List Char), t.length ≤ n → fillOccColor color t →
      ∀ v ∈ collectAttrs patF (replaceAttr patS color t), v = color := by
  intro n
  induction n with
  | zero =>
    intro t ht _ v hv
    have : t = [] := List.length_eq_zero.mp (Nat.le_zero.mp ht)
    subst this
    rw [replaceAttr_nil, collectAttrs_nil] at hv
    exact absurd hv (List.not_mem_nil v)
  | succ n ih =>
    intro t ht hocc v hv
    cases hpfF : patF.isPrefixOf t with
    | true =>
      cases hsqF : splitQuote (t.drop patF.length) with
      | some p =>
        obtain ⟨v0, r⟩ := p
        obtain ⟨u, hu⟩ := (isPrefixOf_ex _ _).mp hpfF
        have hdropu : t.drop patF.length = u := by
          rw [hu]; exact List.drop_left patF u
        obtain ⟨hform, hv0q⟩ := splitQuote_eq_some _ _ _ hsqF
        rw [hdropu] at hform
        have ht' : t = patF ++ v0 ++ '"' :: r := by
          rw [hu, hform]
          simp [List.append_assoc]
        have hv0 : v0 = color := hocc [] v0 r (by rw [ht']; simp) hv0q
        subst hv0
        rw [ht'] at hv
        rw [replaceS_skip_fillblock v0 hq hsfx r] at hv
        rw [collectAttrs_block patF v0 _ hq (by decide)] at hv
        rcases List.mem_cons.mp hv with h | h
        · exact h
        · have hlr : r.length ≤ n := by
            have hlen := congrArg List.length ht'
            simp only [List.length_cons, List.length_append] at hlen
            have : patF.length = 6 := by decide
            omega
          refine ih r hlr ?_ v h
          refine fillOccColor_of_append v0 (patF ++ v0 ++ ['"']) r ?_
          have hshape : (patF ++ v0 ++ ['"']) ++ r = patF ++ v0 ++ '"' :: r := by
            simp [List.append_assoc]
          rw [hshape, ← ht']
          exact hocc
      | none =>
        obtain ⟨u, hu⟩ := (isPrefixOf_ex _ _).mp hpfF
        have hdropu : t.drop patF.length = u := by
          rw [hu]; exact List.drop_left patF u
        have hqu : '"' ∉ u := splitQuote_eq_none _ (hdropu ▸ hsqF)
        have hcnt : t.count '"' = 1 := by
          rw [hu, List.count_append]
          have h1 : patF.count '"' = 1 := by decide
          have h0 : u.count '"' = 0 := List.count_eq_zero.mpr hqu
          omega
        rw [replaceAttr_of_one_quote patS color (by decide) t.length t le_rfl
          (by omega)] at hv
        rw [collectAttrs_of_one_quote patF (by decide) t.length t le_rfl
          (by omega)] at hv
        exact absurd hv (List.not_mem_nil v)
    | false =>
      cases t with
      | nil =>
        rw [replaceAttr_nil, collectAttrs_nil] at hv
        exact absurd hv (List.not_mem_nil v)
      | cons c rest =>
        have hrest : rest.length ≤ n := by
          simp only [List.length_cons] at ht
          omega
        cases hpfS : patS.isPrefixOf (c :: rest) with
        | true =>
          cases hsqS : splitQuote ((c :: rest).drop patS.length) with
          | some p =>
            obtain ⟨w, r'⟩ := p
            rw [replaceAttr_cons_match patS color c rest w r' hpfS hsqS] at hv
            rw [collectF_skip_strokeblock color hq hffy _] at hv
            obtain ⟨hformS, _⟩ := splitQuote_eq_some _ _ _ hsqS
            obtain ⟨uS, huS⟩ := (isPrefixOf_ex _ _).mp hpfS
            have hdropS : (c :: rest).drop patS.length = uS := by
              rw [huS]; exact List.drop_left patS uS
            rw [hdropS] at hformS
            have hlr : r'.length ≤ n := by
              have hlen := congrArg List.length hformS
              have hlen2 := congrArg List.length huS
              simp only [List.length_cons, List.length_append] at hlen hlen2
              have : patS.length = 8 := by decide
              omega
            have htS : c :: rest = (patS ++ w ++ ['"']) ++ r' := by
              rw [huS, hformS]
              simp [List.append_assoc]
            refine ih r' hlr ?_ v hv
            refine fillOccColor_of_append color (patS ++ w ++ ['"']) r' ?_
            rw [← htS]
            exact hocc
          | none =>
            obtain ⟨uS, huS⟩ := (isPrefixOf_ex _ _).mp hpfS
            have hdropS : (c :: rest).drop patS.length = uS := by
              rw [huS]; exact List.drop_left patS uS
            have hqu : '"' ∉ uS := splitQuote_eq_none _ (hdropS ▸ hsqS)
            have hcnt : (c :: rest).count '"' = 1 := by
              rw [huS, List.count_append]
              have h1 : patS.count '"' = 1 := by decide
              have h0 : uS.count '"' = 0 := List.count_eq_zero.mpr hqu
              omega
            rw [replaceAttr_of_one_quote patS color (by decide) (c :: rest).length
              (c :: rest) le_rfl (by omega)] at hv
            rw [collectAttrs_of_one_quote patF (by decide) (c :: rest).length
              (c :: rest) le_rfl (by omega)] at hv
            exact absurd hv (List.not_mem_nil v)
        | false =>
          rw [replaceAttr_cons_neg patS color c rest hpfS] at hv
          have hpf2 : patF.isPrefixOf (c :: replaceAttr patS color rest) = false := by
            cases hh : patF.isPrefixOf (c :: replaceAttr patS color rest) with
            | false => rfl
            | true =>
              have := (isPrefixOf_cons_replace patF patS color (by decide) c rest).mp hh
              rw [hpfF] at this
              exact absurd this (by simp)
          rw [collectAttrs_cons_neg patF c _ hpf2] at hv
          exact ih rest hrest (fillOccColor_of_append color [c] rest hocc) v hv

/-- C8 counterexample: with the color string consisting of a single double
quote and the document `fill="a"`, the recolored output `fill="""` contains
a fill attribute whose value is the empty string, not the requested color:
the claim's universal quantification over arbitrary color strings fails. -/
theorem c8_counterexample :
    [] ∈ collectAttrs patF
      (recolorChars ['"'] ['f', 'i', 'l', 'l', '=', '"', 'a', '"']) ∧
    ([] : List Char) ≠ ['"'] := by
  constructor
  · simp [recolorChars, replaceAttr, collectAttrs, splitQuote, List.isPrefixOf,
      patF, patS, fillKey, strokeKey]
  · simp

/-- C8 (amended): for every SVG document text and every color string that
contains no double quote and no backslash (so that `re.sub` splices it
literally, without template-escape processing) and does not end in `fill=`
or `stroke=` (every real color such as `#00e6ff` qualifies), `_recolor_svg`'s
substitution replaces the value of every fill and every stroke attribute in
the whole document: scanning the output finds only attribute values equal to
the new color. -/
theorem c8_full_substitution (doc color : List Char) (hq : '"' ∉ color)
    (hbs : '\\' ∉ color)
    (hf : ¬ fillKey <:+ color) (hs : ¬ strokeKey <:+ color) :
    (∀ v ∈ collectAttrs patF (recolorChars color doc), v = color) ∧
    (∀ v ∈ collectAttrs patS (recolorChars color doc), v = color) := by
  constructor
  · exact fun v hv => collectF_strokeReplace color hq hf hs
      (replaceAttr patF color doc).length (replaceAttr patF color doc) le_rfl
      (fillOcc_replaceF color hq hf doc.length doc le_rfl) v hv
  · exact fun v hv => collect_replace_self patS color hq (by decide) (by decide)
      (replaceAttr patF color doc).length (replaceAttr patF color doc) le_rfl v hv

/-- Witness for C8 (amended) at a concrete document and color. -/
theorem c8_full_substitution_witness :
    ('"' ∉ ['r', 'e', 'd']) ∧ ('\\' ∉ ['r', 'e', 'd']) ∧
    (¬ fillKey <:+ ['r', 'e', 'd']) ∧
    (¬ strokeKey <:+ ['r', 'e', 'd']) ∧
    ((∀ v ∈ collectAttrs patF
        (recolorChars ['r', 'e', 'd']
          ['f', 'i', 'l', 'l', '=', '"', 'x', '"', ' ',
           's', 't', 'r', 'o', 'k', 'e', '=', '"', 'y', '"']), v = ['r', 'e', 'd']) ∧
     (∀ v ∈ collectAttrs patS
        (recolorChars ['r', 'e', 'd']
          ['f', 'i', 'l', 'l', '=', '"', 'x', '"', ' ',
           's', 't', 'r', 'o', 'k', 'e', '=', '"', 'y', '"']), v = ['r', 'e', 'd'])) :=
  ⟨by decide, by decide, by decide, by decide,
   c8_full_substitution
     ['f', 'i', 'l', 'l', '=', '"', 'x', '"', ' ',
      's', 't', 'r', 'o', 'k', 'e', '=', '"', 'y', '"']
     ['r', 'e', 'd'] (by decide) (by decide) (by decide) (by decide)⟩
